import Mathlib

/-!
# Verification of the mismo record-linkage core

A shallow embedding of the probabilistic matching pipeline of the `mismo`
record-linkage framework: the comparison engine (dimensions partitioned into
ordered agreement levels), the Fellegi-Sunter scoring model, the blocking
cost/join-algorithm guards, the EM trainer, and connected-components
clustering.  The repository ships only the API documentation for these
components, so the definitions below are modelled from the specification,
each marked as such.

The file is organised as definitions first, then theorems.
-/

namespace Mismo

namespace Compare

/-- Modelled from the spec: the implementation of `mismo.compare.ComparisonLevel`
is missing (only its API docs exist).  A level of agreement for one comparison
dimension: a name plus a deterministic boolean predicate over a candidate
pair's two field values. -/
structure ComparisonLevel (P : Type) where
  name : String
  condition : P → Bool

/-- Modelled from the spec: the implementation of `mismo.compare.Comparison` is
missing.  A named comparison dimension with an ordered list of agreement
levels; any pair matched by no level falls to the catch-all `else` level. -/
structure Comparison (P : Type) where
  name : String
  levels : List (ComparisonLevel P)

/-- Modelled from the spec: level assignment evaluates the dimension's ordered
level conditions left-to-right; the first condition returning true determines
the level, and the catch-all `else` level matches anything unmatched. -/
def Comparison.assign {P : Type} (c : Comparison P) (p : P) : String :=
  match c.levels.find? (fun l => l.condition p) with
  | some l => l.name
  | none => "else"

/-- The declarative reading of the spec's assignment rule: `nm` is the name of
the first level (in priority order) whose condition holds of `p`, or `"else"`
when no level's condition holds. -/
def AssignedTo {P : Type} (c : Comparison P) (p : P) (nm : String) : Prop :=
  (∃ pre l post, c.levels = pre ++ l :: post ∧
      (∀ l2 ∈ pre, l2.condition p = false) ∧
      l.condition p = true ∧ nm = l.name) ∨
  ((∀ l ∈ c.levels, l.condition p = false) ∧ nm = "else")

/-- Modelled from the spec: the implementation of `mismo.compare.exact_level`
is missing.  The `exact` level's condition: both field values present and
equal; a pair with a missing (null) value on either side never matches. -/
def exactCondition {V : Type} [DecidableEq V] : Option V × Option V → Bool :=
  fun pr =>
    match pr with
    | (some x, some y) => decide (x = y)
    | _ => false

/-- Modelled from the spec: the designated null-handling level's condition —
true exactly when either side's field value is absent. -/
def nullCondition {V : Type} : Option V × Option V → Bool :=
  fun pr => pr.1.isNone || pr.2.isNone

/-- Modelled from the spec: a dimension with explicit null handling.  The
designated null level is evaluated before `exact` and the remaining levels, so
null pairs route to it rather than crashing or falling through. -/
def nullSafeComparison {V : Type} [DecidableEq V] (name nullName : String)
    (rest : List (ComparisonLevel (Option V × Option V))) :
    Comparison (Option V × Option V) :=
  { name := name,
    levels := ⟨nullName, nullCondition⟩ :: ⟨"exact", exactCondition⟩ :: rest }

end Compare

namespace FS

/-- Modelled from the spec: the implementation of `mismo.fs.LevelWeights` is
missing.  Odds `m / u` of an agreement level, as an extended real: `0` when
`m = 0` (the spec's "certain non-match" rule, which it states first), `∞` when
`u = 0` with `m ≠ 0`, and the finite ratio otherwise. -/
noncomputable def odds (m u : ℝ) : EReal :=
  if m = 0 then (0 : EReal) else if u = 0 then ⊤ else ((m / u : ℝ) : EReal)

/-- Modelled from the spec: base-10 logarithm on the nonnegative extended
reals, following the documentation's odds-to-log-odds table: `0 ↦ -∞` and
`∞ ↦ ∞`, with `Real.logb 10` on positive finite inputs. -/
noncomputable def log10E (x : EReal) : EReal :=
  if x = ⊤ then ⊤
  else if x ≤ 0 then ⊥
  else ((Real.logb 10 x.toReal : ℝ) : EReal)

/-- Modelled from the spec: `mismo.fs.LevelWeights` — per level, the pair
`(m_probability, u_probability)`; its `log_odds` is derived as
`log10 (m / u)`. -/
structure LevelWeights where
  name : String
  m : ℝ
  u : ℝ

/-- Modelled from the spec: a level's `log_odds = log10 (m / u)`. -/
noncomputable def LevelWeights.log_odds (lw : LevelWeights) : EReal :=
  log10E (odds lw.m lw.u)

/-- Modelled from the spec: `mismo.fs.ComparisonWeights` — the weights of one
comparison dimension, one `LevelWeights` per agreement level. -/
structure ComparisonWeights where
  name : String
  levels : List LevelWeights

/-- Modelled from the spec: look up the log-odds of a named level inside one
dimension's weights; `none` when the level name is unknown. -/
noncomputable def ComparisonWeights.level_log_odds? (cw : ComparisonWeights)
    (lvl : String) : Option EReal :=
  (cw.levels.find? (fun lw => lw.name == lvl)).map LevelWeights.log_odds

/-- Modelled from the spec: `mismo.fs.Weights` — per-dimension weights plus
the single global `prior` log-odds for the overall match rate. -/
structure Weights where
  prior : EReal
  comparisons : List ComparisonWeights

/-- Modelled from the spec: the scoring contract of
`mismo.compare.fs.FellegiSunterComparer` — `score(LevelAssignment, Weights)`
computed directly, folding `prior + Σ log_odds` across the dimensions in one
pass.  The level assignment maps each dimension name to a level name. -/
noncomputable def score (w : Weights) (a : String → String) : Option EReal :=
  w.comparisons.foldl
    (fun acc cw =>
      acc.bind (fun s => (cw.level_log_odds? (a cw.name)).map (fun lo => s + lo)))
    (some w.prior)

/-- Maps a fallible function across a list, succeeding only when every
element succeeds. -/
noncomputable def mapO {α β : Type} (f : α → Option β) : List α → Option (List β)
  | [] => some []
  | a :: as => (f a).bind (fun b => (mapO f as).map (fun bs => b :: bs))

/-- Modelled from the spec: the independent computation path for the score —
each dimension's log-odds computed on its own, to be combined afterwards as
`prior + Σ`. -/
noncomputable def perDimensionLogOdds (w : Weights) (a : String → String) :
    Option (List EReal) :=
  mapO (fun cw => cw.level_log_odds? (a cw.name)) w.comparisons

/-- Modelled from the spec: the documentation's rule that odds of independent
dimensions are combined by multiplication. -/
def oddsCombine (o1 o2 : ℝ) : ℝ := o1 * o2

/-- Modelled from the spec: the odds-to-log-odds mapping of the
documentation's glossary (base-10 logarithm), on plain odds values. -/
noncomputable def logOddsOfOdds (o : ℝ) : EReal := log10E ((o : ℝ) : EReal)

end FS

namespace Cluster

/-- Modelled from the spec: the implementation of
`mismo.cluster.connected_components` is missing (only its API docs exist).
A scored pair is `(left_id, right_id, score)`; the pairs whose score meets the
caller's threshold survive as undirected edges. -/
def keptEdges (pairs : List (ℕ × ℕ × ℚ)) (t : ℚ) : List (ℕ × ℕ) :=
  (pairs.filter (fun e => t ≤ e.2.2)).map (fun e => (e.1, e.2.1))

/-- Inserts an id into a component unless already present. -/
def condInsert (a : ℕ) (l : List ℕ) : List ℕ :=
  if l.contains a then l else a :: l

/-- The merged component produced by one union step: every component touching
either endpoint, flattened, with each endpoint added if not yet seen. -/
def mergedComp (comps : List (List ℕ)) (a b : ℕ) : List ℕ :=
  condInsert b (condInsert a
    ((comps.filter (fun c => c.contains a || c.contains b)).flatten))

/-- Modelled from the spec: one union step of the disjoint-set accumulation —
all components touching either endpoint of the edge are merged (with any
endpoint not yet seen added), the rest are kept unchanged. -/
def addEdge (comps : List (List ℕ)) (e : ℕ × ℕ) : List (List ℕ) :=
  mergedComp comps e.1 e.2 ::
    comps.filter (fun c => !(c.contains e.1 || c.contains e.2))

/-- Modelled from the spec: `mismo.cluster.connected_components` — keep the
pairs scoring at least the threshold as undirected edges and accumulate the
connected components of that graph by folding the union step over the edge
stream. -/
def connected_components (pairs : List (ℕ × ℕ × ℚ)) (t : ℚ) : List (List ℕ) :=
  (keptEdges pairs t).foldl addEdge []

/-- Whether two record ids lie in one common cluster of `comps`. -/
def sameCluster (comps : List (List ℕ)) (x y : ℕ) : Bool :=
  comps.any (fun c => c.contains x && c.contains y)

/-- The undirected edge relation of an edge list. -/
def edgeRel (es : List (ℕ × ℕ)) (x y : ℕ) : Prop := (x, y) ∈ es ∨ (y, x) ∈ es

/-- A record id appears as an endpoint of some surviving edge. -/
def Appears (es : List (ℕ × ℕ)) (x : ℕ) : Prop := ∃ e ∈ es, x = e.1 ∨ x = e.2

/-- Declarative connectivity: both ids appear as endpoints of surviving edges
and are joined by the equivalence closure of the undirected edge relation —
the spec's "connected components over the resulting undirected graph". -/
def ConnectedIn (es : List (ℕ × ℕ)) (x y : ℕ) : Prop :=
  Appears es x ∧ Appears es y ∧ Relation.EqvGen (edgeRel es) x y

end Cluster

namespace Block

/-- Modelled from the spec: the shape of a blocking rule's join predicate —
equality key, range, or inequality-only. -/
inductive PredKind : Type
  | equality : PredKind
  | range : PredKind
  | inequalityOnly : PredKind
deriving DecidableEq

/-- Modelled from the spec: the join algorithms a SQL engine would pick, per
the reference docs of `mismo.block.JOIN_ALGORITHMS`. -/
inductive JoinAlgorithm : Type
  | hashJoin : JoinAlgorithm
  | iejoin : JoinAlgorithm
  | nestedLoopJoin : JoinAlgorithm
deriving DecidableEq

/-- Modelled from the spec: `mismo.block.SLOW_JOIN_ALGORITHMS` — the
algorithms considered `O(n*m)` slow. -/
def SLOW_JOIN_ALGORITHMS : List JoinAlgorithm := [JoinAlgorithm.nestedLoopJoin]

/-- Modelled from the spec: `mismo.block.get_join_algorithm` — classify the
rule's predicate: equality keys hash-join, ranges use the iejoin, and
inequality-only predicates force a nested-loop join. -/
def get_join_algorithm : PredKind → JoinAlgorithm
  | PredKind.equality => JoinAlgorithm.hashJoin
  | PredKind.range => JoinAlgorithm.iejoin
  | PredKind.inequalityOnly => JoinAlgorithm.nestedLoopJoin

/-- Modelled from the spec: `mismo.block.SlowJoinError` — the descriptive
fail-fast error, naming the offending value and the threshold violated. -/
structure SlowJoinError : Type where
  reason : String
  value : ℕ
  limit : ℕ
deriving DecidableEq

/-- Modelled from the spec: `mismo.block.SlowJoinWarning` — the advisory
variant reporting the same condition without blocking execution. -/
structure SlowJoinWarning : Type where
  reason : String
  value : ℕ
  limit : ℕ
deriving DecidableEq

/-- Modelled from the spec: `mismo.block.check_join_algorithm` — fail fast
with a `SlowJoinError` when the predicate forces a slow join on more rows than
the configured threshold, unless the caller passes the override. -/
def check_join_algorithm (pred : PredKind) (nRows threshold : ℕ)
    (override : Bool) : Except SlowJoinError Unit :=
  if override then Except.ok ()
  else if get_join_algorithm pred ∈ SLOW_JOIN_ALGORITHMS ∧ threshold < nRows
  then Except.error ⟨"slow join algorithm", nRows, threshold⟩
  else Except.ok ()

/-- Modelled from the spec: executing a blocking rule runs the check first and
performs the join only when it passes — the error path never produces the
join's pairs. -/
def executeBlocking (pred : PredKind) (nRows threshold : ℕ) (override : Bool)
    (joinResult : List (ℕ × ℕ)) : Except SlowJoinError (List (ℕ × ℕ)) :=
  match check_join_algorithm pred nRows threshold override with
  | Except.error e => Except.error e
  | Except.ok _ => Except.ok joinResult

/-- Modelled from the spec: the advisory variant — always executes, returning
the join's pairs together with the warnings for the same condition. -/
def executeBlockingWarn (pred : PredKind) (nRows threshold : ℕ)
    (joinResult : List (ℕ × ℕ)) : List SlowJoinWarning × List (ℕ × ℕ) :=
  (if get_join_algorithm pred ∈ SLOW_JOIN_ALGORITHMS ∧ threshold < nRows
   then [⟨"slow join algorithm", nRows, threshold⟩] else [],
   joinResult)

/-- Modelled from the spec: `mismo.block.estimate_n_pairs` for a key-blocking
rule across two tables — the sum, over each distinct key value, of
`n_left * n_right`, computed from key counts alone. -/
def estimate_n_pairs {K : Type} [DecidableEq K] (ta tb : List K) : ℕ :=
  ∑ k ∈ ta.toFinset, ta.count k * tb.count k

/-- Modelled from the spec: the estimate for dedup blocking within one table —
the sum over each distinct key of `n * (n - 1) / 2`. -/
def estimate_n_pairs_self {K : Type} [DecidableEq K] (t : List K) : ℕ :=
  ∑ k ∈ t.toFinset, t.count k * (t.count k - 1) / 2

/-- The pairs a key-blocking join would actually materialize: one pair per
matching left-row/right-row combination. -/
def blockedPairs {K : Type} [DecidableEq K] : List K → List K → List (K × K)
  | [], _ => []
  | x :: ta, tb =>
    (tb.filter (fun y => y == x)).map (fun y => (x, y)) ++ blockedPairs ta tb

/-- The pairs dedup key-blocking within one table would materialize: one pair
per unordered combination of two equal-key rows. -/
def selfPairs {K : Type} [DecidableEq K] : List K → List (K × K)
  | [] => []
  | x :: t =>
    (t.filter (fun y => y == x)).map (fun y => (x, y)) ++ selfPairs t

/-- Modelled from the spec: the pre-flight cost check — a `SlowJoinError`
triggers when the estimated pair count exceeds the configured ceiling. -/
def check_n_pairs {K : Type} [DecidableEq K] (ta tb : List K) (ceiling : ℕ) :
    Except SlowJoinError Unit :=
  if ceiling < estimate_n_pairs ta tb
  then Except.error ⟨"estimated pairs exceed ceiling", estimate_n_pairs ta tb,
    ceiling⟩
  else Except.ok ()

end Block

namespace EM

/-- Modelled from the spec: the implementation of `mismo.fs.train_comparison`
is missing (only its API docs exist).  The EM trainer works in probability
space over exact rationals: per level, the `(m_probability, u_probability)`
pair. -/
structure QLevelWeights : Type where
  name : String
  m : ℚ
  u : ℚ
deriving DecidableEq

/-- Modelled from the spec: one dimension's trained weights. -/
structure QComparisonWeights : Type where
  name : String
  levels : List QLevelWeights
deriving DecidableEq

/-- Modelled from the spec: the trained `Weights` — the global prior match
probability plus the per-dimension level weights. -/
structure QWeights : Type where
  prior : ℚ
  comparisons : List QComparisonWeights
deriving DecidableEq

/-- The `m_probability` of a named level inside one dimension (0 when the
level name is unknown). -/
def levelM (cw : QComparisonWeights) (nm : String) : ℚ :=
  ((cw.levels.find? (fun lw => lw.name == nm)).map (fun lw => lw.m)).getD 0

/-- The `u_probability` of a named level inside one dimension. -/
def levelU (cw : QComparisonWeights) (nm : String) : ℚ :=
  ((cw.levels.find? (fun lw => lw.name == nm)).map (fun lw => lw.u)).getD 0

/-- The likelihood of a pair's level assignments among true matches. -/
def probM (ws : List QComparisonWeights) (asg : List String) : ℚ :=
  ((ws.zip asg).map (fun p => levelM p.1 p.2)).prod

/-- The likelihood of a pair's level assignments among true non-matches. -/
def probU (ws : List QComparisonWeights) (asg : List String) : ℚ :=
  ((ws.zip asg).map (fun p => levelU p.1 p.2)).prod

/-- Modelled from the spec: the E-step posterior match probability of one pair
under the current weights — the sigmoid of the pair's score, computed in
probability space. -/
def posterior (w : QWeights) (asg : List String) : ℚ :=
  let pm := w.prior * probM w.comparisons asg
  let pu := (1 - w.prior) * probU w.comparisons asg
  if pm + pu = 0 then 0 else pm / (pm + pu)

/-- The M-step's weighted frequency of one level: the posterior-weighted share
of the observations assigned to that level. -/
def levelShare (pps : List (String × ℚ)) (l : String) : ℚ :=
  if (pps.map (fun pp => pp.2)).sum = 0 then 0
  else ((pps.filter (fun pp => pp.1 == l)).map (fun pp => pp.2)).sum /
    (pps.map (fun pp => pp.2)).sum

/-- The (level, weight) observations of dimension `d` over all pairs. -/
def dimObs (pairs : List (List String)) (posts : List ℚ) (d : ℕ) :
    List (String × ℚ) :=
  (pairs.zip posts).map (fun pp => (pp.1.getD d "", pp.2))

/-- Modelled from the spec: one EM iteration — E-step posteriors for every
pair, then M-step re-estimation of every level's `m` and `u` as weighted
frequencies and of the prior as the mean posterior. -/
def emStep (skeleton : List (String × List String))
    (pairs : List (List String)) (w : QWeights) : QWeights :=
  let posts := pairs.map (posterior w)
  let postsU := posts.map (fun p => 1 - p)
  { prior := if pairs.length = 0 then w.prior
      else posts.sum / (pairs.length : ℚ),
    comparisons := skeleton.enum.map (fun de =>
      ⟨de.2.1, de.2.2.map (fun l =>
        ⟨l, levelShare (dimObs pairs posts de.1) l,
          levelShare (dimObs pairs postsU de.1) l⟩)⟩) }

/-- A linear congruential step, the modelled pseudo-random generator behind
the explicit seed parameter. -/
def lcg (seed : ℕ) : ℕ := (seed * 1664525 + 1013904223) % 4294967296

/-- Modelled from the spec: deterministic seeded initialization — uniform
`m`/`u` per level and a prior derived from the explicit seed parameter; no
global random state is consulted. -/
def initWeights (skeleton : List (String × List String)) (seed : ℕ) :
    QWeights :=
  { prior := ((lcg seed % 1000 + 1 : ℕ) : ℚ) / 1002,
    comparisons := skeleton.map (fun ds =>
      ⟨ds.1, ds.2.map (fun l =>
        ⟨l, 1 / (ds.2.length : ℚ), 1 / (ds.2.length : ℚ)⟩)⟩) }

/-- Modelled from the spec: `fit` — seeded deterministic initialization
followed by a bounded number of EM iterations. -/
def fit (skeleton : List (String × List String)) (pairs : List (List String))
    (seed maxIter : ℕ) : QWeights :=
  Nat.iterate (emStep skeleton pairs) maxIter (initWeights skeleton seed)

/-- A runtime world carrying a would-be global random state. -/
structure World : Type where
  rng : ℕ
deriving DecidableEq

/-- `fit` threaded through the world: the explicit-seed trainer neither reads
nor perturbs the world's random state. -/
def fitSeeded (skeleton : List (String × List String))
    (pairs : List (List String)) (seed maxIter : ℕ) :
    World → QWeights × World :=
  fun w => (fit skeleton pairs seed maxIter, w)

/-- The per-dimension normalization invariant: the level `m_probability`s sum
to 1, and likewise the `u_probability`s. -/
def dimNormalized (cw : QComparisonWeights) : Prop :=
  (cw.levels.map (fun lw => lw.m)).sum = 1 ∧
  (cw.levels.map (fun lw => lw.u)).sum = 1

/-- The tolerance form of the invariant: each sum is within `1e-6` of 1. -/
def dimNormalizedTol (cw : QComparisonWeights) : Prop :=
  |(cw.levels.map (fun lw => lw.m)).sum - 1| ≤ 1 / 1000000 ∧
  |(cw.levels.map (fun lw => lw.u)).sum - 1| ≤ 1 / 1000000

end EM

end Mismo

namespace Mismo

namespace Compare

theorem find?_eq_some_of_first {P : Type} (p : P)
    (pre : List (ComparisonLevel P)) (l : ComparisonLevel P)
    (post : List (ComparisonLevel P))
    (hpre : ∀ l2 ∈ pre, l2.condition p = false) (hl : l.condition p = true) :
    (pre ++ l :: post).find? (fun x => x.condition p) = some l := by
  induction pre with
  | nil => simp [List.find?, hl]
  | cons a pre ih =>
    have ha : a.condition p = false := hpre a (by simp)
    simp only [List.cons_append, List.find?, ha]
    exact ih (fun l2 hl2 => hpre l2 (by simp [hl2]))

theorem find?_eq_some_split {P : Type} (p : P)
    (ls : List (ComparisonLevel P)) (l : ComparisonLevel P)
    (h : ls.find? (fun x => x.condition p) = some l) :
    ∃ pre post, ls = pre ++ l :: post ∧
      (∀ l2 ∈ pre, l2.condition p = false) ∧ l.condition p = true := by
  induction ls with
  | nil => simp [List.find?] at h
  | cons a ls ih =>
    by_cases ha : a.condition p = true
    · have : a = l := by
        simp only [List.find?, ha] at h
        exact Option.some.inj h
      exact ⟨[], ls, by simp [this], by simp, this ▸ ha⟩
    · have ha' : a.condition p = false := by
        cases hx : a.condition p with
        | true => exact absurd hx ha
        | false => rfl
      simp only [List.find?, ha'] at h
      obtain ⟨pre, post, hsplit, hpre, hl⟩ := ih h
      exact ⟨a :: pre, post, by simp [hsplit], by
        intro l2 hl2
        rcases List.mem_cons.mp hl2 with h2 | h2
        · exact h2 ▸ ha'
        · exact hpre l2 h2, hl⟩

/-- C2: for every candidate pair and every comparison dimension, evaluating the
ordered level predicates left-to-right with first-match-wins assigns exactly
one level: the computed assignment satisfies the declarative first-match rule
(with the catch-all `else` covering anything unmatched, nulls included, so the
assignment is total), and any name satisfying that rule equals the computed
one, so re-evaluation yields the same level (determinism). -/
theorem assign_total_first_match_deterministic {P : Type}
    (c : Comparison P) (p : P) :
    AssignedTo c p (c.assign p) ∧ ∀ nm, AssignedTo c p nm → nm = c.assign p := by
  constructor
  · unfold Comparison.assign
    cases hf : c.levels.find? (fun x => x.condition p) with
    | none =>
      right
      refine ⟨?_, rfl⟩
      intro l hl
      have := List.find?_eq_none.mp hf l hl
      cases hx : l.condition p with
      | true => exact absurd hx this
      | false => rfl
    | some l =>
      left
      obtain ⟨pre, post, hsplit, hpre, hl⟩ := find?_eq_some_split p c.levels l hf
      exact ⟨pre, l, post, hsplit, hpre, hl, rfl⟩
  · intro nm hnm
    rcases hnm with ⟨pre, l, post, hsplit, hpre, hl, hnm⟩ | ⟨hall, hnm⟩
    · have : c.levels.find? (fun x => x.condition p) = some l := by
        rw [hsplit]; exact find?_eq_some_of_first p pre l post hpre hl
      simp [Comparison.assign, this, hnm]
    · have : c.levels.find? (fun x => x.condition p) = none := by
        apply List.find?_eq_none.mpr
        intro l hl
        simp [hall l hl]
      simp [Comparison.assign, this, hnm]

/-- Witness for C2: a concrete two-level dimension over pairs of naturals,
evaluated at a concrete pair. -/
theorem assign_total_first_match_deterministic_witness :
    AssignedTo
      ⟨"size", [⟨"exact", fun pr : ℕ × ℕ => pr.1 == pr.2⟩,
                ⟨"close", fun pr : ℕ × ℕ => pr.1 + 1 == pr.2⟩]⟩
      (3, 4) "close" := by
  have h := assign_total_first_match_deterministic
    (⟨"size", [⟨"exact", fun pr : ℕ × ℕ => pr.1 == pr.2⟩,
               ⟨"close", fun pr : ℕ × ℕ => pr.1 + 1 == pr.2⟩]⟩ : Comparison (ℕ × ℕ))
    (3, 4)
  have hx : (⟨"size", [⟨"exact", fun pr : ℕ × ℕ => pr.1 == pr.2⟩,
               ⟨"close", fun pr : ℕ × ℕ => pr.1 + 1 == pr.2⟩]⟩ : Comparison (ℕ × ℕ)).assign
      (3, 4) = "close" := by rfl
  exact hx ▸ h.1

/-- C8: for every candidate pair in which either side's field value is null,
level assignment in a null-safe dimension routes the pair to the designated
null-handling level (assignment is total, so the pair is neither dropped nor
a crash), and in particular never assigns the `exact` level. -/
theorem assign_null_routes_to_null_level {V : Type} [DecidableEq V]
    (name nullName : String)
    (rest : List (ComparisonLevel (Option V × Option V)))
    (hn : nullName ≠ "exact") (p : Option V × Option V)
    (hp : p.1 = none ∨ p.2 = none) :
    (nullSafeComparison name nullName rest).assign p = nullName ∧
      (nullSafeComparison name nullName rest).assign p ≠ "exact" := by
  have hcond : nullCondition p = true := by
    rcases hp with h | h <;> simp [nullCondition, h]
  have : (nullSafeComparison name nullName rest).assign p = nullName := by
    simp [nullSafeComparison, Comparison.assign, List.find?, hcond]
  exact ⟨this, by rw [this]; exact hn⟩

/-- Witness for C8: a pair of optional naturals with the left side absent
routes to the `"null"` level of a concrete dimension, not to `"exact"`. -/
theorem assign_null_routes_to_null_level_witness :
    ("null" : String) ≠ "exact" ∧
      ((none, some 3) : Option ℕ × Option ℕ).1 = none ∧
      (nullSafeComparison "age" "null" []).assign (none, some 3) = "null" := by
  refine ⟨by decide, rfl, ?_⟩
  exact (assign_null_routes_to_null_level "age" "null" [] (by decide)
    (none, some 3) (Or.inl rfl)).1

end Compare

namespace FS

theorem score_foldl_none {α : Type} (g : α → Option EReal) (cs : List α) :
    cs.foldl (fun acc cw => acc.bind (fun s => (g cw).map (fun lo => s + lo)))
      none = none := by
  induction cs with
  | nil => rfl
  | cons c cs ih => simpa using ih

theorem score_foldl_eq_mapO {α : Type} (g : α → Option EReal) (cs : List α)
    (init : EReal) :
    cs.foldl (fun acc cw => acc.bind (fun s => (g cw).map (fun lo => s + lo)))
      (some init) = (mapO g cs).map (fun ls => init + ls.sum) := by
  induction cs generalizing init with
  | nil => simp [mapO]
  | cons c cs ih =>
    cases hg : g c with
    | none => simp [mapO, hg, score_foldl_none]
    | some x =>
      have hstep :
          ((some init).bind fun s => Option.map (fun lo => s + lo) (g c)) =
            some (init + x) := by simp [hg]
      rw [List.foldl_cons, hstep, ih (init + x)]
      cases hm : mapO g cs with
      | none => simp [mapO, hg, hm]
      | some ls => simp [mapO, hg, hm, add_assoc]

/-- C1: for every level assignment and every `Weights` value, the score equals
the prior log-odds plus the sum over all dimensions of the assigned level's
log-odds (each level's log-odds being `log10 (m/u)` by definition of
`LevelWeights.log_odds`): computing the score directly and computing
`prior + Σ` from the independently computed per-dimension log-odds yield
identical results (including agreement on failure when a lookup fails). -/
theorem score_two_ways_agree (w : Weights) (a : String → String) :
    score w a = (perDimensionLogOdds w a).map (fun ls => w.prior + ls.sum) :=
  score_foldl_eq_mapO _ w.comparisons w.prior

theorem sum_eq_bot_of_mem {ls : List EReal} (h : ⊥ ∈ ls) : ls.sum = ⊥ := by
  induction ls with
  | nil => simp at h
  | cons a ls ih =>
    rcases List.mem_cons.mp h with h | h
    · rw [List.sum_cons, ← h, EReal.bot_add]
    · rw [List.sum_cons, ih h, EReal.add_bot]

theorem mapO_mem {α β : Type} (f : α → Option β) (xs : List α) (ls : List β)
    (h : mapO f xs = some ls) :
    ∀ x ∈ xs, ∀ b, f x = some b → b ∈ ls := by
  induction xs generalizing ls with
  | nil => intro x hx; simp at hx
  | cons a as ih =>
    intro x hx b hb
    cases hfa : f a with
    | none => rw [mapO, hfa] at h; simp at h
    | some b0 =>
      rw [mapO, hfa] at h
      cases hm : mapO f as with
      | none => rw [hm] at h; simp at h
      | some bs =>
        rw [hm] at h
        simp only [Option.some_bind, Option.map_some] at h
        have hls : ls = b0 :: bs := (Option.some.inj h).symm
        subst hls
        rcases List.mem_cons.mp hx with hxa | hxas
        · subst hxa
          rw [hfa] at hb
          exact (Option.some.inj hb) ▸ List.mem_cons_self b0 bs
        · exact List.mem_cons_of_mem b0 (ih bs hm x hxas b hb)

/-- C5: in a `Weights` value where some dimension's assigned level has
`m_probability = 0`, that level's log-odds is negative infinity and any score
summing over it is negative infinity (a valid extended-real output, never a
clamped finite value); symmetrically a level with `u_probability = 0` (and a
nonzero `m_probability`, the case the spec leaves determined) has log-odds
positive infinity. -/
theorem zero_probability_gives_infinite_log_odds
    (w : Weights) (a : String → String) (cw : ComparisonWeights)
    (lw : LevelWeights) (hmem : cw ∈ w.comparisons)
    (hfind : cw.levels.find? (fun x => x.name == a cw.name) = some lw)
    (hm : lw.m = 0) (ls : List EReal) (hls : perDimensionLogOdds w a = some ls) :
    lw.log_odds = ⊥ ∧ score w a = some ⊥ ∧
      ∀ lw2 : LevelWeights, lw2.u = 0 → lw2.m ≠ 0 → lw2.log_odds = ⊤ := by
  have hbot : lw.log_odds = ⊥ := by
    simp [LevelWeights.log_odds, odds, log10E, hm]
  refine ⟨hbot, ?_, ?_⟩
  · have hlook : cw.level_log_odds? (a cw.name) = some lw.log_odds := by
      simp [ComparisonWeights.level_log_odds?, hfind]
    have hmemls : (⊥ : EReal) ∈ ls :=
      hbot ▸ mapO_mem _ w.comparisons ls hls cw hmem lw.log_odds hlook
    rw [score_two_ways_agree, hls]
    simp [sum_eq_bot_of_mem hmemls, EReal.add_bot]
  · intro lw2 hu hm2
    simp [LevelWeights.log_odds, odds, log10E, hu, hm2]

/-- Witness for C5: a one-dimension `Weights` whose `exact` level has
`m_probability = 0`; the score of a pair assigned to that level is `-∞`. -/
theorem zero_probability_gives_infinite_log_odds_witness :
    (⟨"name", [⟨"exact", 0, 1 / 2⟩]⟩ : ComparisonWeights) ∈
      (⟨0, [⟨"name", [⟨"exact", 0, 1 / 2⟩]⟩]⟩ : Weights).comparisons ∧
    perDimensionLogOdds ⟨0, [⟨"name", [⟨"exact", 0, 1 / 2⟩]⟩]⟩
      (fun _ => "exact") = some [⊥] ∧
    score ⟨0, [⟨"name", [⟨"exact", 0, 1 / 2⟩]⟩]⟩ (fun _ => "exact") =
      some ⊥ := by
  have hls : perDimensionLogOdds ⟨0, [⟨"name", [⟨"exact", 0, 1 / 2⟩]⟩]⟩
      (fun _ => "exact") = some [⊥] := by
    simp [perDimensionLogOdds, mapO, ComparisonWeights.level_log_odds?,
      List.find?, LevelWeights.log_odds, odds, log10E]
  refine ⟨by simp, hls, ?_⟩
  exact (zero_probability_gives_infinite_log_odds
    ⟨0, [⟨"name", [⟨"exact", 0, 1 / 2⟩]⟩]⟩ (fun _ => "exact")
    ⟨"name", [⟨"exact", 0, 1 / 2⟩]⟩ ⟨"exact", 0, 1 / 2⟩
    (by simp) rfl rfl [⊥] hls).2.1

theorem logOddsOfOdds_pos (o : ℝ) (ho : 0 < o) :
    logOddsOfOdds o = ((Real.logb 10 o : ℝ) : EReal) := by
  unfold logOddsOfOdds log10E
  rw [if_neg (EReal.coe_ne_top o), if_neg, EReal.toReal_coe]
  intro h
  exact absurd (EReal.coe_nonpos.mp h) (not_le.mpr ho)

/-- C10: for positive odds of independent dimensions the two documented
combination routes agree — the base-10 log-odds of the product equals the sum
of the individual log-odds; the odds-to-log-odds mapping is strictly monotone
on positive odds and maps 1 to 0, 10 to 1 and 100 to 2; combining odds 100 and
1/10 yields odds 10, i.e. combined log-odds 1. -/
theorem log_odds_combination (o1 o2 : ℝ) (h1 : 0 < o1) (h2 : 0 < o2) :
    logOddsOfOdds (oddsCombine o1 o2) = logOddsOfOdds o1 + logOddsOfOdds o2 ∧
    (∀ a b : ℝ, 0 < a → a < b → logOddsOfOdds a < logOddsOfOdds b) ∧
    logOddsOfOdds 1 = 0 ∧ logOddsOfOdds 10 = 1 ∧ logOddsOfOdds 100 = 2 ∧
    oddsCombine 100 (1 / 10) = 10 ∧
    logOddsOfOdds (oddsCombine 100 (1 / 10)) = 1 := by
  have hten : (1 : ℝ) < 10 := by norm_num
  have hD : logOddsOfOdds 10 = 1 := by
    rw [logOddsOfOdds_pos 10 (by norm_num), Real.logb_self_eq_one hten]
    norm_cast
  have hF : oddsCombine 100 (1 / 10) = 10 := by
    unfold oddsCombine; norm_num
  refine ⟨?_, ?_, ?_, hD, ?_, hF, by rw [hF]; exact hD⟩
  · rw [logOddsOfOdds_pos o1 h1, logOddsOfOdds_pos o2 h2,
      logOddsOfOdds_pos (oddsCombine o1 o2) (mul_pos h1 h2)]
    unfold oddsCombine
    rw [Real.logb_mul (ne_of_gt h1) (ne_of_gt h2)]
    exact (EReal.coe_add _ _).symm
  · intro a b ha hab
    rw [logOddsOfOdds_pos a ha, logOddsOfOdds_pos b (lt_trans ha hab)]
    exact EReal.coe_lt_coe_iff.mpr (Real.logb_lt_logb hten ha hab)
  · rw [logOddsOfOdds_pos 1 one_pos, Real.logb_one]
    norm_cast
  · rw [logOddsOfOdds_pos 100 (by norm_num)]
    have : (100 : ℝ) = 10 ^ (2 : ℕ) := by norm_num
    rw [this, Real.logb_pow, Real.logb_self_eq_one hten]
    norm_cast

/-- Witness for C10: applied at odds 100 and 1/10, whose combination has
log-odds 1. -/
theorem log_odds_combination_witness :
    (0 : ℝ) < 100 ∧ (0 : ℝ) < 1 / 10 ∧
      logOddsOfOdds (oddsCombine 100 (1 / 10)) = 1 :=
  ⟨by norm_num, by norm_num,
    (log_odds_combination 100 (1 / 10) (by norm_num) (by norm_num)).2.2.2.2.2.2⟩

end FS

namespace Cluster

theorem eqvGen_appears {es : List (ℕ × ℕ)} {x y : ℕ}
    (h : Relation.EqvGen (edgeRel es) x y) :
    x = y ∨ (Appears es x ∧ Appears es y) := by
  induction h with
  | rel a b hab =>
    right
    rcases hab with h | h
    · exact ⟨⟨(a, b), h, Or.inl rfl⟩, ⟨(a, b), h, Or.inr rfl⟩⟩
    · exact ⟨⟨(b, a), h, Or.inr rfl⟩, ⟨(b, a), h, Or.inl rfl⟩⟩
  | refl a => exact Or.inl rfl
  | symm a b _ ih =>
    rcases ih with h | ⟨h1, h2⟩
    · exact Or.inl h.symm
    · exact Or.inr ⟨h2, h1⟩
  | trans a b c _ _ ih1 ih2 =>
    rcases ih1 with h1 | ⟨ha, hb⟩
    · rcases ih2 with h2 | ⟨hb, hc⟩
      · exact Or.inl (h1.trans h2)
      · exact Or.inr ⟨h1 ▸ hb, hc⟩
    · rcases ih2 with h2 | ⟨hb2, hc⟩
      · exact Or.inr ⟨ha, h2 ▸ hb⟩
      · exact Or.inr ⟨ha, hc⟩

theorem eqvGen_add_edge {α : Type} (r : α → α → Prop) (a b : α) {x y : α}
    (h : Relation.EqvGen
      (fun u v => r u v ∨ (u = a ∧ v = b) ∨ (u = b ∧ v = a)) x y) :
    Relation.EqvGen r x y ∨
      ((Relation.EqvGen r x a ∨ Relation.EqvGen r x b) ∧
        (Relation.EqvGen r y a ∨ Relation.EqvGen r y b)) := by
  induction h with
  | rel u v huv =>
    rcases huv with h | ⟨hu, hv⟩ | ⟨hu, hv⟩
    · exact Or.inl (Relation.EqvGen.rel _ _ h)
    · subst hu; subst hv
      exact Or.inr ⟨Or.inl (Relation.EqvGen.refl _),
        Or.inr (Relation.EqvGen.refl _)⟩
    · subst hu; subst hv
      exact Or.inr ⟨Or.inr (Relation.EqvGen.refl _),
        Or.inl (Relation.EqvGen.refl _)⟩
  | refl u => exact Or.inl (Relation.EqvGen.refl _)
  | symm u v _ ih =>
    rcases ih with h | ⟨h1, h2⟩
    · exact Or.inl (Relation.EqvGen.symm _ _ h)
    · exact Or.inr ⟨h2, h1⟩
  | trans u v w _ _ ih1 ih2 =>
    rcases ih1 with h1 | ⟨hu, hv⟩
    · rcases ih2 with h2 | ⟨hv2, hw⟩
      · exact Or.inl (Relation.EqvGen.trans _ _ _ h1 h2)
      · refine Or.inr ⟨?_, hw⟩
        rcases hv2 with hv2 | hv2
        · exact Or.inl (Relation.EqvGen.trans _ _ _ h1 hv2)
        · exact Or.inr (Relation.EqvGen.trans _ _ _ h1 hv2)
    · rcases ih2 with h2 | ⟨hv2, hw⟩
      · refine Or.inr ⟨hu, ?_⟩
        rcases hv with hv | hv
        · exact Or.inl
            (Relation.EqvGen.trans _ _ _ (Relation.EqvGen.symm _ _ h2) hv)
        · exact Or.inr
            (Relation.EqvGen.trans _ _ _ (Relation.EqvGen.symm _ _ h2) hv)
      · exact Or.inr ⟨hu, hw⟩

theorem eqvGen_add_edge_of {α : Type} (r : α → α → Prop) (a b : α) {x y : α}
    (h : Relation.EqvGen r x y ∨
      ((Relation.EqvGen r x a ∨ Relation.EqvGen r x b) ∧
        (Relation.EqvGen r y a ∨ Relation.EqvGen r y b))) :
    Relation.EqvGen
      (fun u v => r u v ∨ (u = a ∧ v = b) ∨ (u = b ∧ v = a)) x y := by
  have hmono : ∀ {u v : α}, Relation.EqvGen r u v →
      Relation.EqvGen
        (fun u v => r u v ∨ (u = a ∧ v = b) ∨ (u = b ∧ v = a)) u v :=
    fun h => Relation.EqvGen.mono (fun u v huv => Or.inl huv) h
  have hab : Relation.EqvGen
      (fun u v => r u v ∨ (u = a ∧ v = b) ∨ (u = b ∧ v = a)) a b :=
    Relation.EqvGen.rel _ _ (Or.inr (Or.inl ⟨rfl, rfl⟩))
  rcases h with h | ⟨hx, hy⟩
  · exact hmono h
  · have hxa : Relation.EqvGen
        (fun u v => r u v ∨ (u = a ∧ v = b) ∨ (u = b ∧ v = a)) x a := by
      rcases hx with hx | hx
      · exact hmono hx
      · exact Relation.EqvGen.trans _ _ _ (hmono hx)
          (Relation.EqvGen.symm _ _ hab)
    have hya : Relation.EqvGen
        (fun u v => r u v ∨ (u = a ∧ v = b) ∨ (u = b ∧ v = a)) y a := by
      rcases hy with hy | hy
      · exact hmono hy
      · exact Relation.EqvGen.trans _ _ _ (hmono hy)
          (Relation.EqvGen.symm _ _ hab)
    exact Relation.EqvGen.trans _ _ _ hxa (Relation.EqvGen.symm _ _ hya)

theorem edgeRel_append (es : List (ℕ × ℕ)) (a b u v : ℕ) :
    edgeRel (es ++ [(a, b)]) u v ↔
      edgeRel es u v ∨ (u = a ∧ v = b) ∨ (u = b ∧ v = a) := by
  simp only [edgeRel, List.mem_append, List.mem_singleton, Prod.mk.injEq]
  tauto

theorem appears_append (es : List (ℕ × ℕ)) (a b x : ℕ) :
    Appears (es ++ [(a, b)]) x ↔ Appears es x ∨ x = a ∨ x = b := by
  simp only [Appears, List.mem_append, List.mem_singleton]
  constructor
  · rintro ⟨e, he | he, hx⟩
    · exact Or.inl ⟨e, he, hx⟩
    · subst he; rcases hx with h | h
      · exact Or.inr (Or.inl h)
      · exact Or.inr (Or.inr h)
  · rintro (⟨e, he, hx⟩ | h | h)
    · exact ⟨e, Or.inl he, hx⟩
    · exact ⟨(a, b), Or.inr rfl, Or.inl h⟩
    · exact ⟨(a, b), Or.inr rfl, Or.inr h⟩

theorem eqvGen_edgeRel_append (es : List (ℕ × ℕ)) (a b : ℕ) {x y : ℕ} :
    Relation.EqvGen (edgeRel (es ++ [(a, b)])) x y ↔
      Relation.EqvGen
        (fun u v => edgeRel es u v ∨ (u = a ∧ v = b) ∨ (u = b ∧ v = a)) x y :=
  ⟨Relation.EqvGen.mono (fun u v h => (edgeRel_append es a b u v).mp h),
   Relation.EqvGen.mono (fun u v h => (edgeRel_append es a b u v).mpr h)⟩

theorem sameCluster_iff (comps : List (List ℕ)) (x y : ℕ) :
    sameCluster comps x y = true ↔ ∃ c ∈ comps, x ∈ c ∧ y ∈ c := by
  simp [sameCluster]

theorem mem_condInsert (a x : ℕ) (l : List ℕ) :
    x ∈ condInsert a l ↔ x = a ∨ x ∈ l := by
  unfold condInsert
  split_ifs with h
  · constructor
    · exact Or.inr
    · rintro (rfl | hx)
      · simpa using h
      · exact hx
  · exact List.mem_cons

theorem mem_mergedComp (comps : List (List ℕ)) (a b x : ℕ) :
    x ∈ mergedComp comps a b ↔
      x = a ∨ x = b ∨ ∃ c ∈ comps, (a ∈ c ∨ b ∈ c) ∧ x ∈ c := by
  unfold mergedComp
  rw [mem_condInsert, mem_condInsert]
  have hm0 : x ∈ (comps.filter (fun c => c.contains a || c.contains b)).flatten ↔
      ∃ c ∈ comps, (a ∈ c ∨ b ∈ c) ∧ x ∈ c := by
    simp only [List.mem_flatten, List.mem_filter, Bool.or_eq_true]
    constructor
    · rintro ⟨c, ⟨hc, hab⟩, hz⟩
      refine ⟨c, hc, ?_, hz⟩
      rcases hab with h | h
      · exact Or.inl (by simpa using h)
      · exact Or.inr (by simpa using h)
    · rintro ⟨c, hc, hab, hz⟩
      refine ⟨c, ⟨hc, ?_⟩, hz⟩
      rcases hab with h | h
      · exact Or.inl (by simpa using h)
      · exact Or.inr (by simpa using h)
  rw [hm0]
  constructor
  · rintro (h | h | h)
    · exact Or.inr (Or.inl h)
    · exact Or.inl h
    · exact Or.inr (Or.inr h)
  · rintro (h | h | h)
    · exact Or.inr (Or.inl h)
    · exact Or.inl h
    · exact Or.inr (Or.inr h)

theorem sameCluster_addEdge (comps : List (List ℕ)) (a b x y : ℕ) :
    sameCluster (addEdge comps (a, b)) x y = true ↔
      ((x ∈ mergedComp comps a b ∧ y ∈ mergedComp comps a b) ∨
        ∃ c ∈ comps, a ∉ c ∧ b ∉ c ∧ x ∈ c ∧ y ∈ c) := by
  unfold addEdge sameCluster
  simp only [List.any_cons, List.any_eq_true, List.mem_filter,
    Bool.and_eq_true, Bool.or_eq_true, Bool.not_eq_eq_eq_not, Bool.not_true]
  constructor
  · rintro (h | ⟨c, ⟨hc, hnab⟩, hx, hy⟩)
    · exact Or.inl ⟨by simpa using h.1, by simpa using h.2⟩
    · refine Or.inr ⟨c, hc, ?_, ?_, by simpa using hx, by simpa using hy⟩
      · intro ha
        have : (c.contains a || c.contains b) = true := by
          simp [ha]
        rw [hnab] at this
        exact Bool.false_ne_true this
      · intro hb
        have : (c.contains a || c.contains b) = true := by
          simp [hb]
        rw [hnab] at this
        exact Bool.false_ne_true this
  · rintro (⟨hx, hy⟩ | ⟨c, hc, hna, hnb, hx, hy⟩)
    · exact Or.inl ⟨by simpa using hx, by simpa using hy⟩
    · exact Or.inr ⟨c, ⟨hc, by simp [hna, hnb]⟩, by simpa using hx,
        by simpa using hy⟩

theorem step_preserves (es : List (ℕ × ℕ)) (comps : List (List ℕ)) (a b : ℕ)
    (hInv : ∀ u v, sameCluster comps u v = true ↔ ConnectedIn es u v)
    (x y : ℕ) :
    sameCluster (addEdge comps (a, b)) x y = true ↔
      ConnectedIn (es ++ [(a, b)]) x y := by
  have hMA : ∀ z : ℕ, (∃ c ∈ comps, (a ∈ c ∨ b ∈ c) ∧ z ∈ c) ↔
      (ConnectedIn es a z ∨ ConnectedIn es b z) := by
    intro z
    constructor
    · rintro ⟨c, hc, hab | hab, hz⟩
      · exact Or.inl ((hInv a z).mp ((sameCluster_iff comps a z).mpr
          ⟨c, hc, hab, hz⟩))
      · exact Or.inr ((hInv b z).mp ((sameCluster_iff comps b z).mpr
          ⟨c, hc, hab, hz⟩))
    · rintro (h | h)
      · obtain ⟨c, hc, ha, hz⟩ := (sameCluster_iff comps a z).mp
          ((hInv a z).mpr h)
        exact ⟨c, hc, Or.inl ha, hz⟩
      · obtain ⟨c, hc, hb, hz⟩ := (sameCluster_iff comps b z).mp
          ((hInv b z).mpr h)
        exact ⟨c, hc, Or.inr hb, hz⟩
  have hmemM : ∀ z : ℕ, z ∈ mergedComp comps a b ↔
      (z = a ∨ z = b ∨ ConnectedIn es a z ∨ ConnectedIn es b z) := by
    intro z
    rw [mem_mergedComp, hMA]
  -- from membership in the merged component, the appears-and-connected facts
  have hside : ∀ z : ℕ, z ∈ mergedComp comps a b →
      Appears (es ++ [(a, b)]) z ∧
        (Relation.EqvGen (edgeRel es) z a ∨ Relation.EqvGen (edgeRel es) z b) := by
    intro z hz
    rcases (hmemM z).mp hz with hza | hzb | h | h
    · refine ⟨(appears_append es a b z).mpr (Or.inr (Or.inl hza)), Or.inl ?_⟩
      rw [hza]
      exact Relation.EqvGen.refl a
    · refine ⟨(appears_append es a b z).mpr (Or.inr (Or.inr hzb)), Or.inr ?_⟩
      rw [hzb]
      exact Relation.EqvGen.refl b
    · exact ⟨(appears_append es a b z).mpr (Or.inl h.2.1),
        Or.inl (Relation.EqvGen.symm _ _ h.2.2)⟩
    · exact ⟨(appears_append es a b z).mpr (Or.inl h.2.1),
        Or.inr (Relation.EqvGen.symm _ _ h.2.2)⟩
  -- a same-component fact over the old state settles the goal's left side
  have hKcase : ∀ u v : ℕ, ConnectedIn es u v →
      ((u ∈ mergedComp comps a b ∧ v ∈ mergedComp comps a b) ∨
        ∃ c ∈ comps, a ∉ c ∧ b ∉ c ∧ u ∈ c ∧ v ∈ c) := by
    intro u v hK
    obtain ⟨c, hc, hu, hv⟩ := (sameCluster_iff comps u v).mp
      ((hInv u v).mpr hK)
    by_cases hca : a ∈ c ∨ b ∈ c
    · refine Or.inl ⟨?_, ?_⟩
      · exact (mem_mergedComp comps a b u).mpr
          (Or.inr (Or.inr ⟨c, hc, hca, hu⟩))
      · exact (mem_mergedComp comps a b v).mpr
          (Or.inr (Or.inr ⟨c, hc, hca, hv⟩))
    · exact Or.inr ⟨c, hc, (not_or.mp hca).1, (not_or.mp hca).2, hu, hv⟩
  rw [sameCluster_addEdge]
  constructor
  · rintro (⟨hx, hy⟩ | ⟨c, hc, hna, hnb, hx, hy⟩)
    · obtain ⟨hAx, hEx⟩ := hside x hx
      obtain ⟨hAy, hEy⟩ := hside y hy
      exact ⟨hAx, hAy, (eqvGen_edgeRel_append es a b).mpr
        (eqvGen_add_edge_of (edgeRel es) a b (Or.inr ⟨hEx, hEy⟩))⟩
    · have hK : ConnectedIn es x y :=
        (hInv x y).mp ((sameCluster_iff comps x y).mpr ⟨c, hc, hx, hy⟩)
      exact ⟨(appears_append es a b x).mpr (Or.inl hK.1),
        (appears_append es a b y).mpr (Or.inl hK.2.1),
        (eqvGen_edgeRel_append es a b).mpr
          (Relation.EqvGen.mono (fun u v h => Or.inl h) hK.2.2)⟩
  · rintro ⟨hAx, hAy, hE⟩
    rcases eqvGen_add_edge (edgeRel es) a b
        ((eqvGen_edgeRel_append es a b).mp hE) with hExy | ⟨hx, hy⟩
    · rcases eqvGen_appears hExy with rfl | ⟨hAx2, hAy2⟩
      · -- x = y: the id is its own cluster evidence
        rcases (appears_append es a b x).mp hAx with hA | rfl | rfl
        · exact hKcase x x ⟨hA, hA, Relation.EqvGen.refl _⟩
        · exact Or.inl ⟨(hmemM _).mpr (Or.inl rfl), (hmemM _).mpr (Or.inl rfl)⟩
        · exact Or.inl ⟨(hmemM _).mpr (Or.inr (Or.inl rfl)),
            (hmemM _).mpr (Or.inr (Or.inl rfl))⟩
      · exact hKcase x y ⟨hAx2, hAy2, hExy⟩
    · -- x and y are both joined to the new merged component
      refine Or.inl ⟨?_, ?_⟩
      · refine (hmemM x).mpr ?_
        rcases hx with hx | hx
        · rcases eqvGen_appears hx with rfl | ⟨hA1, hA2⟩
          · exact Or.inl rfl
          · exact Or.inr (Or.inr (Or.inl
              ⟨hA2, hA1, Relation.EqvGen.symm _ _ hx⟩))
        · rcases eqvGen_appears hx with rfl | ⟨hA1, hA2⟩
          · exact Or.inr (Or.inl rfl)
          · exact Or.inr (Or.inr (Or.inr
              ⟨hA2, hA1, Relation.EqvGen.symm _ _ hx⟩))
      · refine (hmemM y).mpr ?_
        rcases hy with hy | hy
        · rcases eqvGen_appears hy with rfl | ⟨hA1, hA2⟩
          · exact Or.inl rfl
          · exact Or.inr (Or.inr (Or.inl
              ⟨hA2, hA1, Relation.EqvGen.symm _ _ hy⟩))
        · rcases eqvGen_appears hy with rfl | ⟨hA1, hA2⟩
          · exact Or.inr (Or.inl rfl)
          · exact Or.inr (Or.inr (Or.inr
              ⟨hA2, hA1, Relation.EqvGen.symm _ _ hy⟩))

theorem foldl_addEdge_inv (suf : List (ℕ × ℕ)) :
    ∀ (pre : List (ℕ × ℕ)) (comps : List (List ℕ)),
      (∀ u v, sameCluster comps u v = true ↔ ConnectedIn pre u v) →
      ∀ u v, sameCluster (suf.foldl addEdge comps) u v = true ↔
        ConnectedIn (pre ++ suf) u v := by
  induction suf with
  | nil =>
    intro pre comps h u v
    simpa using h u v
  | cons e suf ih =>
    obtain ⟨a, b⟩ := e
    intro pre comps h u v
    have hstep := step_preserves pre comps a b h
    have hres := ih (pre ++ [(a, b)]) (addEdge comps (a, b)) hstep u v
    rw [List.foldl_cons]
    rw [hres]
    have : pre ++ [(a, b)] ++ suf = pre ++ (a, b) :: suf := by simp
    rw [this]

theorem sameCluster_foldl (es : List (ℕ × ℕ)) (u v : ℕ) :
    sameCluster (es.foldl addEdge []) u v = true ↔ ConnectedIn es u v := by
  have h0 : ∀ u v, sameCluster ([] : List (List ℕ)) u v = true ↔
      ConnectedIn ([] : List (ℕ × ℕ)) u v := by
    intro u v
    simp [sameCluster, ConnectedIn, Appears]
  simpa using foldl_addEdge_inv es [] [] h0 u v

theorem mem_keptEdges (pairs : List (ℕ × ℕ × ℚ)) (t : ℚ) (e : ℕ × ℕ) :
    e ∈ keptEdges pairs t ↔ ∃ s : ℚ, (e.1, e.2, s) ∈ pairs ∧ t ≤ s := by
  obtain ⟨e1, e2⟩ := e
  simp only [keptEdges, List.mem_map, List.mem_filter, decide_eq_true_eq]
  constructor
  · rintro ⟨⟨p1, p2, p3⟩, ⟨hp, ht⟩, hpe⟩
    simp only [Prod.mk.injEq] at hpe
    obtain ⟨rfl, rfl⟩ := hpe
    exact ⟨p3, hp, ht⟩
  · rintro ⟨s, hp, ht⟩
    exact ⟨(e1, e2, s), ⟨hp, ht⟩, rfl⟩

theorem keptEdges_example :
    keptEdges [(1, 2, (9 : ℚ) / 10), (2, 3, 9 / 10), (4, 5, 1 / 10)] (1 / 2) =
      [(1, 2), (2, 3)] := by
  norm_num [keptEdges, List.filter_cons]

theorem connected_components_example :
    connected_components
        [(1, 2, (9 : ℚ) / 10), (2, 3, 9 / 10), (4, 5, 1 / 10)] (1 / 2) =
      [[3, 2, 1]] := by
  rw [connected_components, keptEdges_example]
  rfl

/-- C3 counterexample: for the spec's own example — edges
`(1,2,0.9), (2,3,0.9), (4,5,0.1)` and threshold `0.5` — the claim says the
clusters are `{1,2,3}` **and** `{4,5}`; but the `(4,5)` edge scores below the
threshold and is excluded, so 4 and 5 are not connected by any surviving edge
and `{4,5}` is not a connected component: 4 and 5 do not share a cluster,
either computationally or under the claim's own declarative rule. -/
theorem cluster_example_counterexample :
    sameCluster
      (connected_components
        [(1, 2, (9 : ℚ) / 10), (2, 3, 9 / 10), (4, 5, 1 / 10)] (1 / 2)) 4 5 =
      false ∧
    ¬ ConnectedIn
      (keptEdges [(1, 2, (9 : ℚ) / 10), (2, 3, 9 / 10), (4, 5, 1 / 10)]
        (1 / 2)) 4 5 := by
  constructor
  · rw [connected_components_example]
    decide
  · intro h
    have h4 : ¬ Appears [(1, 2), (2, 3)] 4 := by simp [Appears]
    rw [keptEdges_example] at h
    exact h4 h.1

/-- C3 (amended): `cluster(scored_pairs, threshold)` keeps exactly the pairs
with `score >= threshold` as undirected edges and its clusters are exactly the
connected components of that graph (two ids share a cluster iff both appear in
a surviving edge and are joined by the equivalence closure of the surviving
edges); for the edges `(1,2,0.9), (2,3,0.9), (4,5,0.1)` with threshold `0.5`
the surviving edges are `(1,2)` and `(2,3)` — so the only cluster is
`{1,2,3}`; the low-score edge is excluded and 4 and 5 form no cluster. -/
theorem cluster_connected_components (pairs : List (ℕ × ℕ × ℚ)) (t : ℚ) :
    (∀ e : ℕ × ℕ, e ∈ keptEdges pairs t ↔
      ∃ s : ℚ, (e.1, e.2, s) ∈ pairs ∧ t ≤ s) ∧
    (∀ x y, sameCluster (connected_components pairs t) x y = true ↔
      ConnectedIn (keptEdges pairs t) x y) ∧
    keptEdges [(1, 2, (9 : ℚ) / 10), (2, 3, 9 / 10), (4, 5, 1 / 10)] (1 / 2) =
      [(1, 2), (2, 3)] ∧
    (sameCluster
        (connected_components
          [(1, 2, (9 : ℚ) / 10), (2, 3, 9 / 10), (4, 5, 1 / 10)] (1 / 2))
        1 2 = true ∧
      sameCluster
        (connected_components
          [(1, 2, (9 : ℚ) / 10), (2, 3, 9 / 10), (4, 5, 1 / 10)] (1 / 2))
        1 3 = true ∧
      sameCluster
        (connected_components
          [(1, 2, (9 : ℚ) / 10), (2, 3, 9 / 10), (4, 5, 1 / 10)] (1 / 2))
        4 5 = false ∧
      sameCluster
        (connected_components
          [(1, 2, (9 : ℚ) / 10), (2, 3, 9 / 10), (4, 5, 1 / 10)] (1 / 2))
        3 4 = false) := by
  refine ⟨mem_keptEdges pairs t, ?_, keptEdges_example,
    by rw [connected_components_example]; decide,
    by rw [connected_components_example]; decide,
    by rw [connected_components_example]; decide,
    by rw [connected_components_example]; decide⟩
  intro x y
  exact sameCluster_foldl (keptEdges pairs t) x y

end Cluster

namespace Block

/-- C4: when a blocking rule's predicate forces a nested-loop join on a
dataset larger than the configured threshold and the caller has not passed the
override, the check fails fast with a `SlowJoinError` naming the violated
threshold and the join is never executed (the error carries no pairs); the
override lets the join run; the `SlowJoinWarning` variant always executes the
join and reports a warning exactly for the same slow-join condition. -/
theorem slow_join_guard (pred : PredKind) (nRows threshold : ℕ)
    (override : Bool) (joinResult : List (ℕ × ℕ)) :
    (get_join_algorithm pred ∈ SLOW_JOIN_ALGORITHMS → threshold < nRows →
      override = false →
      executeBlocking pred nRows threshold override joinResult =
        Except.error ⟨"slow join algorithm", nRows, threshold⟩) ∧
    (override = true →
      executeBlocking pred nRows threshold override joinResult =
        Except.ok joinResult) ∧
    (executeBlockingWarn pred nRows threshold joinResult).2 = joinResult ∧
    ((executeBlockingWarn pred nRows threshold joinResult).1 ≠ [] ↔
      (get_join_algorithm pred ∈ SLOW_JOIN_ALGORITHMS ∧ threshold < nRows)) := by
  refine ⟨?_, ?_, ?_, ?_⟩
  · intro hslow hth hov
    subst hov
    simp [executeBlocking, check_join_algorithm, hslow, hth]
  · intro hov
    subst hov
    simp [executeBlocking, check_join_algorithm]
  · simp [executeBlockingWarn]
  · by_cases h : get_join_algorithm pred ∈ SLOW_JOIN_ALGORITHMS ∧ threshold < nRows
    · simp [executeBlockingWarn, h]
    · simp [executeBlockingWarn, h]

/-- Witness for C4: an inequality-only predicate over 10 rows against
threshold 5 without override fails fast with the descriptive error. -/
theorem slow_join_guard_witness :
    get_join_algorithm PredKind.inequalityOnly ∈ SLOW_JOIN_ALGORITHMS ∧
    (5 : ℕ) < 10 ∧
    executeBlocking PredKind.inequalityOnly 10 5 false [(1, 2)] =
      Except.error ⟨"slow join algorithm", 10, 5⟩ :=
  ⟨by decide, by decide,
    (slow_join_guard PredKind.inequalityOnly 10 5 false [(1, 2)]).1
      (by decide) (by decide) rfl⟩

theorem length_blockedPairs {K : Type} [DecidableEq K] (ta tb : List K) :
    (blockedPairs ta tb).length = (ta.map (fun x => tb.count x)).sum := by
  induction ta with
  | nil => rfl
  | cons x ta ih =>
    simp only [blockedPairs, List.length_append, List.length_map,
      List.map_cons, List.sum_cons, ih]
    rw [← List.countP_eq_length_filter]
    rfl

theorem estimate_eq_blockedPairs {K : Type} [DecidableEq K] (ta tb : List K) :
    estimate_n_pairs ta tb = (blockedPairs ta tb).length := by
  rw [length_blockedPairs, Finset.sum_list_map_count]
  unfold estimate_n_pairs
  refine Finset.sum_congr rfl (fun k _ => ?_)
  rw [smul_eq_mul]

theorem choose_succ_two (n : ℕ) : (n + 1).choose 2 = n.choose 2 + n := by
  rw [show (2 : ℕ) = 1 + 1 from rfl, Nat.choose_succ_succ, Nat.choose_one_right,
    Nat.add_comm]

theorem sum_choose_eq_selfPairs {K : Type} [DecidableEq K] (t : List K) :
    (∑ k ∈ t.toFinset, (t.count k).choose 2) = (selfPairs t).length := by
  induction t with
  | nil => rfl
  | cons x t ih =>
    have hlen : (selfPairs (x :: t)).length = t.count x + (selfPairs t).length := by
      simp only [selfPairs, List.length_append, List.length_map]
      rw [← List.countP_eq_length_filter]
      rfl
    rw [hlen, ← ih]
    by_cases hx : x ∈ t
    · have hins : (x :: t).toFinset = t.toFinset := by
        simp [List.toFinset_cons, Finset.insert_eq_self, hx]
      rw [hins]
      have hsum : ∀ k ∈ t.toFinset, ((x :: t).count k).choose 2 =
          (t.count k).choose 2 + (if k = x then t.count k else 0) := by
        intro k _
        by_cases hkx : k = x
        · subst hkx
          rw [List.count_cons, if_pos (by simp), choose_succ_two, if_pos rfl]
        · rw [List.count_cons, if_neg (by simpa using Ne.symm hkx)]
          simp [hkx]
      rw [Finset.sum_congr rfl hsum, Finset.sum_add_distrib]
      have hite : (∑ k ∈ t.toFinset, if k = x then t.count k else 0) =
          t.count x := by
        rw [Finset.sum_ite_eq' t.toFinset x (fun k => t.count k)]
        simp [hx]
      rw [hite, Nat.add_comm]
    · have hcx : t.count x = 0 := List.count_eq_zero_of_not_mem hx
      have hxtf : x ∉ t.toFinset := by simpa using hx
      rw [List.toFinset_cons, Finset.sum_insert hxtf]
      have hhead : ((x :: t).count x).choose 2 = 0 := by
        rw [List.count_cons, if_pos (by simp), hcx]
        decide
      rw [hhead, Nat.zero_add, hcx, Nat.zero_add]
      refine Finset.sum_congr rfl (fun k hk => ?_)
      have hkx : k ≠ x := fun h => hxtf (h ▸ hk)
      rw [List.count_cons, if_neg (by simpa using Ne.symm hkx), Nat.add_zero]

theorem estimate_self_eq_selfPairs {K : Type} [DecidableEq K] (t : List K) :
    estimate_n_pairs_self t = (selfPairs t).length := by
  have hchoose : estimate_n_pairs_self t =
      ∑ k ∈ t.toFinset, (t.count k).choose 2 := by
    unfold estimate_n_pairs_self
    exact Finset.sum_congr rfl (fun k _ => (Nat.choose_two_right _).symm)
  rw [hchoose, sum_choose_eq_selfPairs]

/-- C7: the cardinality estimator for a key-blocking rule returns, from key
counts alone, exactly the number of pairs the join would materialize — the
sum over distinct keys of `n_left * n_right` across two tables, and
`n * (n - 1) / 2` for dedup within one table; for key value counts `[3, 2]`
in table A and `[2, 4]` in table B the estimate is `3*2 + 2*4 = 14`; and the
pre-flight check raises a `SlowJoinError` exactly when the estimate exceeds
the configured ceiling. -/
theorem estimate_n_pairs_correct {K : Type} [DecidableEq K]
    (ta tb t : List K) (ceiling : ℕ) :
    estimate_n_pairs ta tb = (blockedPairs ta tb).length ∧
    estimate_n_pairs_self t = (selfPairs t).length ∧
    estimate_n_pairs [0, 0, 0, 1, 1] [0, 0, 1, 1, 1, 1] = 14 ∧
    (ceiling < estimate_n_pairs ta tb →
      check_n_pairs ta tb ceiling =
        Except.error ⟨"estimated pairs exceed ceiling",
          estimate_n_pairs ta tb, ceiling⟩) ∧
    (estimate_n_pairs ta tb ≤ ceiling →
      check_n_pairs ta tb ceiling = Except.ok ()) := by
  refine ⟨estimate_eq_blockedPairs ta tb, estimate_self_eq_selfPairs t,
    by decide, ?_, ?_⟩
  · intro h
    simp [check_n_pairs, h]
  · intro h
    simp [check_n_pairs, Nat.not_lt.mpr h]

/-- Witness for C7: the spec's example counts with ceiling 10 — the estimate
14 exceeds the ceiling and the check errors. -/
theorem estimate_n_pairs_correct_witness :
    (10 : ℕ) < estimate_n_pairs [0, 0, 0, 1, 1] [0, 0, 1, 1, 1, 1] ∧
    check_n_pairs [0, 0, 0, 1, 1] [0, 0, 1, 1, 1, 1] 10 =
      Except.error ⟨"estimated pairs exceed ceiling", 14, 10⟩ := by
  have h := (estimate_n_pairs_correct [0, 0, 0, 1, 1] [0, 0, 1, 1, 1, 1]
    ([] : List ℕ) 10).2.2.2.1 (by decide)
  have he : estimate_n_pairs [0, 0, 0, 1, 1] [0, 0, 1, 1, 1, 1] = 14 := by
    decide
  rw [he] at h
  exact ⟨by decide, h⟩

end Block

namespace EM

theorem sum_map_add (ls : List String) (f g : String → ℚ) :
    (ls.map (fun l => f l + g l)).sum = (ls.map f).sum + (ls.map g).sum := by
  induction ls with
  | nil => simp
  | cons a ls ih =>
    simp only [List.map_cons, List.sum_cons, ih]
    ring

theorem sum_map_div (ls : List String) (f : String → ℚ) (c : ℚ) :
    (ls.map (fun l => f l / c)).sum = (ls.map f).sum / c := by
  induction ls with
  | nil => simp
  | cons a ls ih => simp [ih, add_div]

theorem sum_map_ite_notmem (ls : List String) (x : String) (c : ℚ)
    (hx : x ∉ ls) :
    (ls.map (fun l => if x == l then c else 0)).sum = 0 := by
  induction ls with
  | nil => simp
  | cons a ls ih =>
    simp only [List.mem_cons, not_or] at hx
    have hxa : (x == a) = false := beq_eq_false_iff_ne.mpr hx.1
    rw [List.map_cons, List.sum_cons, if_neg (by simp [hxa]), ih hx.2, add_zero]

theorem sum_map_ite_mem (ls : List String) (x : String) (c : ℚ)
    (hnd : ls.Nodup) (hx : x ∈ ls) :
    (ls.map (fun l => if x == l then c else 0)).sum = c := by
  induction ls with
  | nil => cases hx
  | cons a ls ih =>
    rcases List.mem_cons.mp hx with h | h
    · have hnotin : x ∉ ls := by
        rw [h]
        exact (List.nodup_cons.mp hnd).1
      have hxa : (x == a) = true := beq_iff_eq.mpr h
      rw [List.map_cons, List.sum_cons, if_pos hxa,
        sum_map_ite_notmem ls x c hnotin, add_zero]
    · have hxa : (x == a) = false :=
        beq_eq_false_iff_ne.mpr (fun he => (List.nodup_cons.mp hnd).1 (he ▸ h))
      rw [List.map_cons, List.sum_cons, if_neg (by simp [hxa]),
        ih (List.nodup_cons.mp hnd).2 h, zero_add]

theorem sum_filter_shares (lvls : List String) (pps : List (String × ℚ))
    (hnd : lvls.Nodup) (hmem : ∀ pp ∈ pps, pp.1 ∈ lvls) :
    (lvls.map (fun l =>
      ((pps.filter (fun q => q.1 == l)).map (fun q => q.2)).sum)).sum =
      (pps.map (fun q => q.2)).sum := by
  induction pps with
  | nil => simp
  | cons pp pps ih =>
    have hstep : ∀ l : String,
        (((pp :: pps).filter (fun q => q.1 == l)).map (fun q => q.2)).sum =
          (if pp.1 == l then pp.2 else 0) +
            ((pps.filter (fun q => q.1 == l)).map (fun q => q.2)).sum := by
      intro l
      by_cases h : (pp.1 == l) = true
      · simp [List.filter_cons, h]
      · simp [List.filter_cons, h]
    have hmap : lvls.map (fun l =>
        (((pp :: pps).filter (fun q => q.1 == l)).map (fun q => q.2)).sum) =
        lvls.map (fun l => (if pp.1 == l then pp.2 else 0) +
          ((pps.filter (fun q => q.1 == l)).map (fun q => q.2)).sum) :=
      List.map_congr_left (fun l _ => hstep l)
    rw [hmap, sum_map_add,
      sum_map_ite_mem lvls pp.1 pp.2 hnd (hmem pp (List.mem_cons_self pp pps)),
      ih (fun q hq => hmem q (List.mem_cons_of_mem pp hq))]
    simp

theorem levelShare_sum (lvls : List String) (pps : List (String × ℚ))
    (hnd : lvls.Nodup) (hmem : ∀ pp ∈ pps, pp.1 ∈ lvls)
    (htot : (pps.map (fun q => q.2)).sum ≠ 0) :
    (lvls.map (fun l => levelShare pps l)).sum = 1 := by
  unfold levelShare
  simp only [if_neg htot]
  rw [sum_map_div, sum_filter_shares lvls pps hnd hmem]
  exact div_self htot

theorem zip_map_self {α β : Type} (l : List α) (g : α → β) :
    l.zip (l.map g) = l.map (fun x => (x, g x)) := by
  induction l with
  | nil => rfl
  | cons a l ih => simp [ih]

theorem dimObs_snd_sum (pairs : List (List String)) (g : List String → ℚ)
    (d : ℕ) :
    ((dimObs pairs (pairs.map g) d).map (fun pp => pp.2)).sum =
      (pairs.map g).sum := by
  simp only [dimObs, zip_map_self, List.map_map]
  rfl

theorem dimObs_mem (pairs : List (List String)) (posts : List ℚ) (d : ℕ)
    (pp : String × ℚ) (hpp : pp ∈ dimObs pairs posts d) :
    ∃ p ∈ pairs, pp.1 = p.getD d "" := by
  unfold dimObs at hpp
  obtain ⟨q, hq, hqe⟩ := List.mem_map.mp hpp
  exact ⟨q.1, (List.of_mem_zip hq).1, by rw [← hqe]⟩

theorem init_level_sum (lvls : List String) (hne : lvls ≠ []) :
    (lvls.map (fun _ => 1 / (lvls.length : ℚ))).sum = 1 := by
  have hlen : lvls.length ≠ 0 := fun h => hne (List.eq_nil_of_length_eq_zero h)
  have hq : (lvls.length : ℚ) ≠ 0 := Nat.cast_ne_zero.mpr hlen
  rw [List.map_const', List.sum_replicate, nsmul_eq_mul]
  field_simp

theorem tol_of_normalized (cw : QComparisonWeights) (h : dimNormalized cw) :
    dimNormalizedTol cw := by
  unfold dimNormalizedTol
  rw [h.1, h.2]
  norm_num

/-- C9: every operation of the modelled trainer that produces `Weights`
preserves the normalization invariant: in the seeded initialization and after
an EM step (given that every pair's assigned level belongs to the dimension's
level list, the level lists are duplicate-free and nonempty, and the E-step's
posterior mass on matches and on non-matches are both nonzero), every
dimension's `m_probability`s sum to exactly 1 and likewise its
`u_probability`s — in particular within the spec's `1e-6` tolerance. -/
theorem weights_normalization
    (skeleton : List (String × List String)) (pairs : List (List String))
    (w : QWeights) (seed : ℕ)
    (hnd : ∀ ds ∈ skeleton, ds.2.Nodup)
    (hne : ∀ ds ∈ skeleton, ds.2 ≠ [])
    (hmem : ∀ de ∈ skeleton.enum, ∀ p ∈ pairs, p.getD de.1 "" ∈ de.2.2)
    (htm : (pairs.map (posterior w)).sum ≠ 0)
    (htu : (pairs.map (fun p => 1 - posterior w p)).sum ≠ 0) :
    (∀ cw ∈ (initWeights skeleton seed).comparisons,
      dimNormalized cw ∧ dimNormalizedTol cw) ∧
    (∀ cw ∈ (emStep skeleton pairs w).comparisons,
      dimNormalized cw ∧ dimNormalizedTol cw) := by
  constructor
  · intro cw hcw
    simp only [initWeights, List.mem_map] at hcw
    obtain ⟨ds, hds, hcweq⟩ := hcw
    have hsum : dimNormalized cw := by
      rw [← hcweq]
      constructor
      · simp only [List.map_map]
        exact init_level_sum ds.2 (hne ds hds)
      · simp only [List.map_map]
        exact init_level_sum ds.2 (hne ds hds)
    exact ⟨hsum, tol_of_normalized cw hsum⟩
  · intro cw hcw
    simp only [emStep, List.mem_map] at hcw
    obtain ⟨de, hde, hcweq⟩ := hcw
    have hdemem : de.2 ∈ skeleton := List.snd_mem_of_mem_enum hde
    have hlvnd : de.2.2.Nodup := hnd de.2 hdemem
    have hobsm : ∀ pp ∈ dimObs pairs (pairs.map (posterior w)) de.1,
        pp.1 ∈ de.2.2 := by
      intro pp hpp
      obtain ⟨p, hp, hpe⟩ := dimObs_mem pairs _ de.1 pp hpp
      rw [hpe]
      exact hmem de hde p hp
    have hpostsU : (pairs.map (posterior w)).map (fun p => 1 - p) =
        pairs.map (fun p => 1 - posterior w p) := by
      rw [List.map_map]
      rfl
    have hobsu : ∀ pp ∈ dimObs pairs
        (pairs.map (fun p => 1 - posterior w p)) de.1, pp.1 ∈ de.2.2 := by
      intro pp hpp
      obtain ⟨p, hp, hpe⟩ := dimObs_mem pairs _ de.1 pp hpp
      rw [hpe]
      exact hmem de hde p hp
    have htotm : ((dimObs pairs (pairs.map (posterior w)) de.1).map
        (fun pp => pp.2)).sum ≠ 0 := by
      rw [dimObs_snd_sum]
      exact htm
    have htotu : ((dimObs pairs (pairs.map (fun p => 1 - posterior w p))
        de.1).map (fun pp => pp.2)).sum ≠ 0 := by
      rw [dimObs_snd_sum]
      exact htu
    have hsum : dimNormalized cw := by
      rw [← hcweq]
      constructor
      · simp only [List.map_map]
        exact levelShare_sum de.2.2 _ hlvnd hobsm htotm
      · simp only [List.map_map, hpostsU]
        exact levelShare_sum de.2.2 _ hlvnd hobsu htotu
    exact ⟨hsum, tol_of_normalized cw hsum⟩

/-- Witness for C9: a one-dimension skeleton with level `"a"`, one pair, and
uniform current weights — both posterior-mass totals are nonzero and every
dimension of the EM step's output is normalized. -/
theorem weights_normalization_witness :
    ((([["a"]] : List (List String)).map
      (posterior ⟨1 / 2, [⟨"d", [⟨"a", 1, 1⟩]⟩]⟩)).sum ≠ 0) ∧
    ((([["a"]] : List (List String)).map
      (fun p => 1 - posterior ⟨1 / 2, [⟨"d", [⟨"a", 1, 1⟩]⟩]⟩ p)).sum ≠ 0) ∧
    (∀ cw ∈ (emStep [("d", ["a"])] [["a"]]
        ⟨1 / 2, [⟨"d", [⟨"a", 1, 1⟩]⟩]⟩).comparisons,
      dimNormalized cw ∧ dimNormalizedTol cw) := by
  have hpost : posterior ⟨1 / 2, [⟨"d", [⟨"a", 1, 1⟩]⟩]⟩ ["a"] = 1 / 2 := by
    norm_num [posterior, probM, probU, levelM, levelU, List.find?]
  have htm : (([["a"]] : List (List String)).map
      (posterior ⟨1 / 2, [⟨"d", [⟨"a", 1, 1⟩]⟩]⟩)).sum ≠ 0 := by
    simp only [List.map_cons, List.map_nil, List.sum_cons, List.sum_nil]
    rw [hpost]
    norm_num
  have htu : (([["a"]] : List (List String)).map
      (fun p => 1 - posterior ⟨1 / 2, [⟨"d", [⟨"a", 1, 1⟩]⟩]⟩ p)).sum ≠ 0 := by
    simp only [List.map_cons, List.map_nil, List.sum_cons, List.sum_nil]
    rw [hpost]
    norm_num
  refine ⟨htm, htu, ?_⟩
  exact (weights_normalization [("d", ["a"])] [["a"]]
    ⟨1 / 2, [⟨"d", [⟨"a", 1, 1⟩]⟩]⟩ 7
    (by decide) (by decide) (by decide) htm htu).2

/-- C6: running the modelled EM trainer's `fit` twice with the same seed and
the same inputs yields identical `Weights`: a second run after the first
(through whatever world state the first left behind) returns the same value,
and the result does not depend on the world's hidden random state at all. -/
theorem fit_two_run_deterministic (skeleton : List (String × List String))
    (pairs : List (List String)) (seed maxIter : ℕ) (w1 w2 : World) :
    (fitSeeded skeleton pairs seed maxIter w1).1 =
      (fitSeeded skeleton pairs seed maxIter
        ((fitSeeded skeleton pairs seed maxIter w1).2)).1 ∧
    (fitSeeded skeleton pairs seed maxIter w1).1 =
      (fitSeeded skeleton pairs seed maxIter w2).1 :=
  ⟨rfl, rfl⟩

end EM

end Mismo
